import Mathlib

/-!
# Verification of the generic 2D search tree (`searchTree2D.h`)

A shallow embedding of the predicate-driven quadtree from `searchTree2D.h`.

* `SearchPredicate V C` embeds the `SearchPredicate<Value, NodeCompare>`
  interface: `nilCompare`, `buildRegionFromData`, `buildQuadrantsFromData`,
  `satisfies`, `overlaps`.  The C++ `buildQuadrantsFromData` mutates four
  quadrant descriptors passed by reference; here it receives the current
  quadrant map (`RegionCode → C`) and returns the updated map.
* `Node V C` embeds `SearchTree2D::Node`: a `m_compare` descriptor, four
  child slots keyed by `RegionCode` (the `m_mapRegions` entries, each
  possibly null), and the local `m_data` value set (`std::set<Value>`
  becomes `Finset V`; iteration order of `std::set` is the `LinearOrder`
  on `V`, used where the C++ iterates the set).
* `SearchTree2D V C` embeds the tree facade: an optional predicate pointer
  and an optional root node.  In the C++ every reachable node's
  `m_predicate` pointer equals the owning tree's (the node constructor and
  `setPredicate` keep them in sync), so node operations here take the
  predicate as a parameter instead of storing it.
* `Node::rebalance` recurses into freshly created children and nothing
  bounds that recursion for an arbitrary predicate, so it is embedded with
  explicit fuel: `Node.rebalance P fuel n = none` means the C++ call would
  not have finished within `fuel` levels of child recursion; `some n'`
  is the result of any terminating run.
-/

/-- The four search quadrants (`enum class RegionCode`).  The C++ constants
are bit flags `1,2,4,8`; `std::map<RegionCode, _>` iterates them in this
numeric order. -/
inductive RegionCode where
  | UPPER_LEFT | UPPER_RIGHT | LOWER_LEFT | LOWER_RIGHT
  deriving DecidableEq, Repr

instance : Fintype RegionCode :=
  ⟨⟨{.UPPER_LEFT, .UPPER_RIGHT, .LOWER_LEFT, .LOWER_RIGHT}, by decide⟩,
    by intro x; cases x <;> decide⟩

/-- `const std::size_t g_minDataSize = 3;` -/
def g_minDataSize : Nat := 3

/-- The `SearchPredicate<Value, NodeCompare>` interface.  All five members
are pure in the C++ contract ("all pure/deterministic functions of their
inputs"). -/
structure SearchPredicate (V C : Type) where
  nilCompare : C
  buildRegionFromData : Finset V → C
  buildQuadrantsFromData : C → Finset V → (RegionCode → C) → (RegionCode → C)
  satisfies : C → V → Bool
  overlaps : C → C → Bool

/-- `SearchTree2D::Node`: search-space descriptor `m_compare`, the four
child slots of `m_mapRegions` in map order (upper-left, upper-right,
lower-left, lower-right; a missing child is the C++ null pointer), and the
local data set `m_data`. -/
inductive Node (V C : Type) where
  | mk (m_compare : C) (ul ur ll lr : Option (Node V C)) (m_data : Finset V)

variable {V C : Type} [LinearOrder V]

def Node.m_compare : Node V C → C
  | .mk c _ _ _ _ _ => c

def Node.m_data : Node V C → Finset V
  | .mk _ _ _ _ _ d => d

/-- The child slot of `m_mapRegions` for a region code. -/
def Node.child : Node V C → RegionCode → Option (Node V C)
  | .mk _ ul _ _ _ _, .UPPER_LEFT => ul
  | .mk _ _ ur _ _ _, .UPPER_RIGHT => ur
  | .mk _ _ _ ll _ _, .LOWER_LEFT => ll
  | .mk _ _ _ _ lr _, .LOWER_RIGHT => lr

/-- `Node::hasChildren`: at least one of the four slots is non-null. -/
def Node.hasChildren : Node V C → Bool
  | .mk _ ul ur ll lr _ => ul.isSome || ur.isSome || ll.isSome || lr.isSome

mutual

/-- `Node::getAllChildValues`: all values belonging to this node and its
children (the C++ guards the child loop with `hasChildren()`, which only
skips a loop over four null slots). -/
def Node.getAllChildValues : Node V C → Finset V
  | .mk _ ul ur ll lr d =>
    Node.getAllOpt ul ∪ Node.getAllOpt ur ∪ Node.getAllOpt ll ∪ Node.getAllOpt lr ∪ d

/-- Contribution of one child slot to `getAllChildValues` (the null check
inside the C++ loop). -/
def Node.getAllOpt : Option (Node V C) → Finset V
  | none => ∅
  | some m => m.getAllChildValues

end

mutual

/-- `Node::getNearbyValues`: union the results of every non-null child,
then add this node's own `m_data` when the predicate reports that
`m_compare` overlaps the query region (this also surfaces orphaned
values). -/
def Node.getNearbyValues (P : SearchPredicate V C) (q : C) : Node V C → Finset V
  | .mk c ul ur ll lr d =>
    (if (Node.mk c ul ur ll lr d).hasChildren then
      Node.nearOpt P q ul ∪ Node.nearOpt P q ur ∪ Node.nearOpt P q ll ∪ Node.nearOpt P q lr
    else ∅)
    ∪ (if P.overlaps c q then d else ∅)

/-- Contribution of one child slot to `getNearbyValues` (the null check
inside the C++ loop). -/
def Node.nearOpt (P : SearchPredicate V C) (q : C) : Option (Node V C) → Finset V
  | none => ∅
  | some m => m.getNearbyValues P q

end

/-- `region.second && m_predicate->satisfies(region.second->m_compare, val)`:
whether a child slot is non-null and its region satisfies the value. -/
def Node.satOpt (P : SearchPredicate V C) (v : V) : Option (Node V C) → Bool
  | none => false
  | some m => P.satisfies m.m_compare v

mutual

/-- `Node::add`: with children, insert the value into every non-null child
whose region satisfies it; if none did (`!wasAdded`), keep the value in
this node's own `m_data` as an orphan.  Without children, insert into
`m_data`. -/
def Node.add (P : SearchPredicate V C) (v : V) : Node V C → Node V C
  | .mk c ul ur ll lr d =>
    if (Node.mk c ul ur ll lr d).hasChildren then
      Node.mk c (Node.addOpt P v ul) (Node.addOpt P v ur) (Node.addOpt P v ll) (Node.addOpt P v lr)
        (if (Node.satOpt P v ul || Node.satOpt P v ur || Node.satOpt P v ll || Node.satOpt P v lr)
          then d else insert v d)
    else
      Node.mk c ul ur ll lr (insert v d)

/-- One iteration of the `Node::add` child loop on a slot. -/
def Node.addOpt (P : SearchPredicate V C) (v : V) : Option (Node V C) → Option (Node V C)
  | none => none
  | some m => if P.satisfies m.m_compare v then some (m.add P v) else some m

end

mutual

/-- `Node::remove`: recurse into every non-null child, then erase the value
from this node's own `m_data` (clearing any orphan copy).  No predicate is
consulted. -/
def Node.remove (v : V) : Node V C → Node V C
  | .mk c ul ur ll lr d =>
    if (Node.mk c ul ur ll lr d).hasChildren then
      Node.mk c (Node.remOpt v ul) (Node.remOpt v ur) (Node.remOpt v ll) (Node.remOpt v lr)
        (d.erase v)
    else
      Node.mk c ul ur ll lr (d.erase v)

/-- One iteration of the `Node::remove` child loop on a slot. -/
def Node.remOpt (v : V) : Option (Node V C) → Option (Node V C)
  | none => none
  | some m => some (m.remove v)

end

/-- `Node::shouldSubdivide`: true exactly when some value fails at least
one of the four candidate quadrant regions (the C++ sets `inAllRegions`
to false on the first failure and returns `!inAllRegions`). -/
def Node.shouldSubdivide (P : SearchPredicate V C) (vals : Finset V)
    (quads : RegionCode → C) : Bool :=
  !(decide (∀ v ∈ vals, ∀ r : RegionCode, P.satisfies (quads r) v = true))

/-- `Node::setCompare`. -/
def Node.setCompare (cc : C) : Node V C → Node V C
  | .mk _ ul ur ll lr d => .mk cc ul ur ll lr d

/-- `Node::buildRootRegion`: recompute this node's own `m_compare` from the
current transitive membership. -/
def Node.buildRootRegion (P : SearchPredicate V C) (n : Node V C) : Node V C :=
  n.setCompare (P.buildRegionFromData n.getAllChildValues)

/-- `Node::deleteChildren`: null out all four slots. -/
def Node.deleteChildren : Node V C → Node V C
  | .mk c _ _ _ _ d => .mk c none none none none d

/-- The reference `region.second->m_compare` taken while collecting the
quadrant map during `Node::rebalance`.  The C++ dereferences the slot
without a null check (see the all-or-nothing child invariant); a null slot
there is undefined behaviour, rendered here as `nilCompare`. -/
def Node.compOpt (P : SearchPredicate V C) : Option (Node V C) → C
  | none => P.nilCompare
  | some m => m.m_compare

/-- Writing a recomputed quadrant region back through the collected
reference (`region.second->setCompare` effect of the in-place mutation). -/
def Node.setCompOpt (cc : C) : Option (Node V C) → Option (Node V C)
  | none => none
  | some m => some (m.setCompare cc)

/-- The `for (auto thisVal : setAllData) add(thisVal);` loop: `std::set`
iterates in increasing value order. -/
def Node.addList (P : SearchPredicate V C) : Node V C → List V → Node V C
  | n, [] => n
  | n, v :: vs => Node.addList P (n.add P v) vs

/-- The re-add phase of `Node::rebalance` when children already exist:
write the recomputed quadrant regions through the collected references
into the (kept) children, clear `m_data`, then re-add every value of the
pruned set through `Node.add` in `std::set` iteration order. -/
def Node.reAddExisting (P : SearchPredicate V C) (quads : RegionCode → C)
    (allData : Finset V) (c : C) (ul ur ll lr : Option (Node V C)) : Node V C :=
  Node.addList P
    (Node.mk c (Node.setCompOpt (quads .UPPER_LEFT) ul)
      (Node.setCompOpt (quads .UPPER_RIGHT) ur)
      (Node.setCompOpt (quads .LOWER_LEFT) ll)
      (Node.setCompOpt (quads .LOWER_RIGHT) lr) ∅)
    (allData.sort (· ≤ ·))

/-- The re-add phase of `Node::rebalance` when no children existed: build
four fresh child nodes carrying the computed quadrant regions, clear
`m_data`, then re-add every value of the pruned set through `Node.add` in
`std::set` iteration order. -/
def Node.reAddFresh (P : SearchPredicate V C) (quads : RegionCode → C)
    (allData : Finset V) (c : C) : Node V C :=
  Node.addList P
    (Node.mk c (some (Node.mk (quads .UPPER_LEFT) none none none none ∅))
      (some (Node.mk (quads .UPPER_RIGHT) none none none none ∅))
      (some (Node.mk (quads .LOWER_LEFT) none none none none ∅))
      (some (Node.mk (quads .LOWER_RIGHT) none none none none ∅)) ∅)
    (allData.sort (· ≤ ·))

mutual

/-- `Node::rebalance`, with explicit fuel bounding the depth of recursion
into (possibly freshly created) children; `none` means the run did not
finish within `fuel` levels.  Steps, as in the C++: collect the transitive
data, prune values failing this node's `m_compare`, clear `m_data`, then
either collapse to a leaf (small data, or quadrants that do not
discriminate) or recompute the quadrant regions, re-add every value
through `Node.add` (orphans land back in `m_data`), and rebalance each
child.  In the childless branch four fresh children are materialized
before the re-add. -/
def Node.rebalance (P : SearchPredicate V C) : Nat → Node V C → Option (Node V C)
  | 0, _ => none
  | fuel + 1, .mk c ul ur ll lr d =>
    let setAllData := ((Node.mk c ul ur ll lr d).getAllChildValues).filter
      (fun v => P.satisfies c v = true)
    if (Node.mk c ul ur ll lr d).hasChildren then
      if setAllData.card ≤ g_minDataSize then
        some (Node.mk c none none none none setAllData)
      else
        if Node.shouldSubdivide P setAllData
            (P.buildQuadrantsFromData c setAllData (fun r =>
              Node.compOpt P ((Node.mk c ul ur ll lr d).child r))) then
          Node.rebalanceKids P fuel
            (Node.reAddExisting P
              (P.buildQuadrantsFromData c setAllData (fun r =>
                Node.compOpt P ((Node.mk c ul ur ll lr d).child r)))
              setAllData c ul ur ll lr)
        else
          some (Node.mk c none none none none setAllData)
    else
      if setAllData.card ≤ g_minDataSize then
        some (Node.mk c none none none none setAllData)
      else
        if Node.shouldSubdivide P setAllData
            (P.buildQuadrantsFromData c setAllData (fun _ => P.nilCompare)) then
          Node.rebalanceKids P fuel
            (Node.reAddFresh P
              (P.buildQuadrantsFromData c setAllData (fun _ => P.nilCompare))
              setAllData c)
        else
          some (Node.mk c none none none none setAllData)
termination_by fuel _ => (fuel, 0)

/-- The trailing loop of `Node::rebalance` that rebalances every non-null
child. -/
def Node.rebalanceKids (P : SearchPredicate V C) (fuel : Nat) : Node V C → Option (Node V C)
  | .mk c ul ur ll lr d => do
    let ul' ← Node.rebOpt P fuel ul
    let ur' ← Node.rebOpt P fuel ur
    let ll' ← Node.rebOpt P fuel ll
    let lr' ← Node.rebOpt P fuel lr
    some (Node.mk c ul' ur' ll' lr' d)
termination_by _ => (fuel, 2)

/-- One iteration of the child-rebalance loop on a slot. -/
def Node.rebOpt (P : SearchPredicate V C) (fuel : Nat) :
    Option (Node V C) → Option (Option (Node V C))
  | none => some none
  | some m => (Node.rebalance P fuel m).map some
termination_by _ => (fuel, 1)

end

/-- `SearchTree2D`: optional non-owning predicate pointer and optional
owned root node. -/
structure SearchTree2D (V C : Type) where
  m_predicate : Option (SearchPredicate V C)
  m_tree : Option (Node V C)

/-- `Node::Node(Predicate*)` with a non-null predicate: `m_compare`
initialized to `nilCompare()`, all four child slots null, empty data. -/
def Node.newNode (P : SearchPredicate V C) : Node V C :=
  .mk P.nilCompare none none none none ∅

/-- `SearchTree2D::add`: no-op without a predicate; otherwise lazily create
the root node and delegate. -/
def SearchTree2D.add (t : SearchTree2D V C) (v : V) : SearchTree2D V C :=
  match t.m_predicate with
  | none => t
  | some P =>
    { t with m_tree := some ((t.m_tree.getD (Node.newNode P)).add P v) }

/-- `SearchTree2D::remove`: delegate to the root when present. -/
def SearchTree2D.remove (t : SearchTree2D V C) (v : V) : SearchTree2D V C :=
  { t with m_tree := t.m_tree.map (Node.remove v) }

/-- `SearchTree2D::getNearbyValues`: empty without a root; with a null
predicate every node's overlap test fails, so the result is empty too. -/
def SearchTree2D.getNearbyValues (t : SearchTree2D V C) (q : C) : Finset V :=
  match t.m_tree, t.m_predicate with
  | some n, some P => n.getNearbyValues P q
  | _, _ => ∅

/-- `SearchTree2D::rebalance`: with a root and a predicate, rebuild the
root region from the current data and rebalance; otherwise both
`buildRootRegion` and `Node::rebalance` return immediately. -/
def SearchTree2D.rebalance (t : SearchTree2D V C) (fuel : Nat) :
    Option (SearchTree2D V C) :=
  match t.m_tree, t.m_predicate with
  | some n, some P =>
    (Node.rebalance P fuel (n.buildRootRegion P)).map
      (fun n' => { t with m_tree := some n' })
  | _, _ => some t

/-- The tree's current transitive membership (`m_tree->getAllChildValues()`
or empty). -/
def SearchTree2D.allValues (t : SearchTree2D V C) : Finset V :=
  match t.m_tree with
  | some n => n.getAllChildValues
  | none => ∅

/-- Union of `getNearbyValues` over a family of query regions. -/
def SearchTree2D.unionNearby (t : SearchTree2D V C) (F : List C) : Finset V :=
  F.foldr (fun R s => t.getNearbyValues R ∪ s) ∅

mutual

/-- The `(m_compare, m_data)` pairs of every node of a subtree (this node
first, then the four child subtrees in map order). -/
def Node.locations : Node V C → List (C × Finset V)
  | .mk c ul ur ll lr d =>
    (c, d) :: (Node.locOpt ul ++ Node.locOpt ur ++ Node.locOpt ll ++ Node.locOpt lr)

/-- `locations` contribution of one child slot. -/
def Node.locOpt : Option (Node V C) → List (C × Finset V)
  | none => []
  | some m => m.locations

end

mutual

/-- The all-or-nothing child invariant: every reachable node has all four
slots null or all four non-null (checked recursively). -/
def Node.balanced4 : Node V C → Bool
  | .mk _ ul ur ll lr _ =>
    ((ul.isNone && ur.isNone && ll.isNone && lr.isNone)
      || (ul.isSome && ur.isSome && ll.isSome && lr.isSome))
    && Node.balOpt ul && Node.balOpt ur && Node.balOpt ll && Node.balOpt lr

/-- `balanced4` on one child slot. -/
def Node.balOpt : Option (Node V C) → Bool
  | none => true
  | some m => m.balanced4

end

/-! ## Concrete predicate instances used for witnesses and counterexamples -/

/-- A trivial geometry: one region value, everything satisfies everything,
everything overlaps everything. -/
def truePred : SearchPredicate Nat Unit where
  nilCompare := ()
  buildRegionFromData := fun _ => ()
  buildQuadrantsFromData := fun _ _ q => q
  satisfies := fun _ _ => true
  overlaps := fun _ _ => true

/-- A degenerate geometry whose membership test always fails while every
region overlaps every other: values inserted at the root never satisfy any
region, including the recomputed root region. -/
def noSatPred : SearchPredicate Nat Unit where
  nilCompare := ()
  buildRegionFromData := fun _ => ()
  buildQuadrantsFromData := fun _ _ q => q
  satisfies := fun _ _ => false
  overlaps := fun _ _ => true

/-! ## Basic lemmas about the node operations -/

theorem Node.getAllOpt_none : Node.getAllOpt (V := V) (C := C) none = ∅ := by
  rw [Node.getAllOpt]

theorem Node.getAllOpt_some (m : Node V C) :
    Node.getAllOpt (some m) = m.getAllChildValues := by
  rw [Node.getAllOpt]

theorem Node.getAll_mk (c : C) (ul ur ll lr : Option (Node V C)) (d : Finset V) :
    (Node.mk c ul ur ll lr d).getAllChildValues =
      Node.getAllOpt ul ∪ Node.getAllOpt ur ∪ Node.getAllOpt ll ∪ Node.getAllOpt lr ∪ d := by
  rw [Node.getAllChildValues]

theorem Node.hasChildren_eq_false {c : C} {ul ur ll lr : Option (Node V C)} {d : Finset V}
    (h : (Node.mk c ul ur ll lr d).hasChildren = false) :
    ul = none ∧ ur = none ∧ ll = none ∧ lr = none := by
  rw [Node.hasChildren] at h
  simp only [Bool.or_eq_false_iff, Option.not_isSome_iff_eq_none, ← Option.not_isSome,
    Bool.not_eq_true] at h
  exact ⟨Option.not_isSome_iff_eq_none.mp (by simp [h.1.1.1]),
    Option.not_isSome_iff_eq_none.mp (by simp [h.1.1.2]),
    Option.not_isSome_iff_eq_none.mp (by simp [h.1.2]),
    Option.not_isSome_iff_eq_none.mp (by simp [h.2])⟩

/-- `getNearbyValues` never invents values: whatever a query returns is in
the transitive membership. -/
theorem Node.getNearby_sub_getAll (P : SearchPredicate V C) (q : C) :
    (n : Node V C) → n.getNearbyValues P q ⊆ n.getAllChildValues
  | .mk c ul ur ll lr d => by
    rw [Node.getNearbyValues, Node.getAll_mk]
    intro w hw
    simp only [Finset.mem_union] at hw ⊢
    by_cases h : (Node.mk c ul ur ll lr d).hasChildren
    · rw [if_pos h] at hw
      simp only [Finset.mem_union] at hw
      rcases hw with (((h1 | h2) | h3) | h4) | h5
      · cases ul with
        | none => rw [Node.nearOpt] at h1; exact absurd h1 (Finset.not_mem_empty w)
        | some m =>
          rw [Node.nearOpt] at h1
          exact Or.inl (Or.inl (Or.inl (Or.inl ((Node.getAllOpt_some m) ▸
            Node.getNearby_sub_getAll P q m h1))))
      · cases ur with
        | none => rw [Node.nearOpt] at h2; exact absurd h2 (Finset.not_mem_empty w)
        | some m =>
          rw [Node.nearOpt] at h2
          exact Or.inl (Or.inl (Or.inl (Or.inr ((Node.getAllOpt_some m) ▸
            Node.getNearby_sub_getAll P q m h2))))
      · cases ll with
        | none => rw [Node.nearOpt] at h3; exact absurd h3 (Finset.not_mem_empty w)
        | some m =>
          rw [Node.nearOpt] at h3
          exact Or.inl (Or.inl (Or.inr ((Node.getAllOpt_some m) ▸
            Node.getNearby_sub_getAll P q m h3)))
      · cases lr with
        | none => rw [Node.nearOpt] at h4; exact absurd h4 (Finset.not_mem_empty w)
        | some m =>
          rw [Node.nearOpt] at h4
          exact Or.inl (Or.inr ((Node.getAllOpt_some m) ▸
            Node.getNearby_sub_getAll P q m h4))
      · split at h5
        · exact Or.inr h5
        · exact absurd h5 (Finset.not_mem_empty w)
    · rw [if_neg (by simpa using h)] at hw
      rcases hw with h0 | h5
      · exact absurd h0 (Finset.not_mem_empty w)
      · split at h5
        · exact Or.inr h5
        · exact absurd h5 (Finset.not_mem_empty w)

theorem Node.nearOpt_none (P : SearchPredicate V C) (q : C) :
    Node.nearOpt (V := V) P q none = ∅ := by rw [Node.nearOpt]

theorem Node.nearOpt_some (P : SearchPredicate V C) (q : C) (m : Node V C) :
    Node.nearOpt P q (some m) = m.getNearbyValues P q := by rw [Node.nearOpt]

/-- `getNearbyValues` on a `mk` node, with the redundant `hasChildren`
guard removed (when there are no children the four slot contributions are
already empty). -/
theorem Node.getNearby_mk (P : SearchPredicate V C) (q : C) (c : C)
    (ul ur ll lr : Option (Node V C)) (d : Finset V) :
    (Node.mk c ul ur ll lr d).getNearbyValues P q =
      Node.nearOpt P q ul ∪ Node.nearOpt P q ur ∪ Node.nearOpt P q ll ∪ Node.nearOpt P q lr
        ∪ (if P.overlaps c q then d else ∅) := by
  rw [Node.getNearbyValues]
  by_cases h : (Node.mk c ul ur ll lr d).hasChildren = true
  · rw [if_pos h]
  · obtain ⟨h1, h2, h3, h4⟩ :=
      Node.hasChildren_eq_false (Bool.not_eq_true _ ▸ h : (Node.mk c ul ur ll lr d).hasChildren = false)
    subst h1; subst h2; subst h3; subst h4
    rw [if_neg h]
    simp [Node.nearOpt_none]

/-- `add` leaves the node's own `m_compare` unchanged. -/
theorem Node.add_m_compare (P : SearchPredicate V C) (v : V) (n : Node V C) :
    (n.add P v).m_compare = n.m_compare := by
  cases n with
  | mk c ul ur ll lr d =>
    rw [Node.add]
    split <;> rw [Node.m_compare, Node.m_compare]

/-- `add` preserves each child slot's presence. -/
theorem Node.addOpt_isSome (P : SearchPredicate V C) (v : V) (o : Option (Node V C)) :
    (Node.addOpt P v o).isSome = o.isSome := by
  cases o with
  | none => rw [Node.addOpt]
  | some m => rw [Node.addOpt]; split <;> rfl

theorem Node.addOpt_isNone (P : SearchPredicate V C) (v : V) (o : Option (Node V C)) :
    (Node.addOpt P v o).isNone = o.isNone := by
  cases o with
  | none => rw [Node.addOpt]
  | some m => rw [Node.addOpt]; split <;> rfl

theorem Node.add_hasChildren (P : SearchPredicate V C) (v : V) (n : Node V C) :
    (n.add P v).hasChildren = n.hasChildren := by
  cases n with
  | mk c ul ur ll lr d =>
    rw [Node.add]
    split
    · rw [Node.hasChildren, Node.hasChildren]
      simp only [Node.addOpt_isSome]
    · rw [Node.hasChildren, Node.hasChildren]

theorem mem_ite_insert {w v : V} (p : Prop) [Decidable p] (A : Finset V) :
    (w ∈ (if p then insert v A else A)) ↔ ((p ∧ w = v) ∨ w ∈ A) := by
  split_ifs with hp <;> simp [hp]

theorem mem_ite_orphan {w v : V} (p : Prop) [Decidable p] (d : Finset V) :
    (w ∈ (if p then d else insert v d)) ↔ ((¬p ∧ w = v) ∨ w ∈ d) := by
  split_ifs with hp <;> simp [hp]

mutual

/-- The transitive membership after `add` is exactly the old membership
plus the new value: `add` never loses the value, wherever it is routed. -/
theorem Node.getAll_add (P : SearchPredicate V C) (v : V) :
    (n : Node V C) → (n.add P v).getAllChildValues = insert v n.getAllChildValues
  | .mk c ul ur ll lr d => by
    rw [Node.add]
    by_cases h : (Node.mk c ul ur ll lr d).hasChildren = true
    · rw [if_pos h, Node.getAll_mk, Node.getAll_mk,
        Node.getAllOpt_addOpt P v ul, Node.getAllOpt_addOpt P v ur,
        Node.getAllOpt_addOpt P v ll, Node.getAllOpt_addOpt P v lr]
      ext w
      simp only [Finset.mem_union, mem_ite_insert, mem_ite_orphan, Finset.mem_insert,
        Bool.or_eq_true, not_or]
      tauto
    · rw [if_neg h, Node.getAll_mk, Node.getAll_mk]
      ext w
      simp only [Finset.mem_union, Finset.mem_insert]
      tauto

/-- Effect of one slot of the `add` loop on that slot's membership. -/
theorem Node.getAllOpt_addOpt (P : SearchPredicate V C) (v : V) :
    (o : Option (Node V C)) → Node.getAllOpt (Node.addOpt P v o) =
      (if Node.satOpt P v o then insert v (Node.getAllOpt o) else Node.getAllOpt o)
  | none => by
    rw [Node.addOpt, Node.satOpt]
    simp
  | some m => by
    rw [Node.addOpt, Node.satOpt]
    by_cases hs : P.satisfies m.m_compare v = true
    · rw [if_pos hs, if_pos hs, Node.getAllOpt_some, Node.getAllOpt_some,
        Node.getAll_add P v m]
    · rw [if_neg hs, if_neg hs]

end

mutual

/-- `remove` erases the value from the whole transitive membership. -/
theorem Node.getAll_remove (v : V) :
    (n : Node V C) → (n.remove v).getAllChildValues = n.getAllChildValues.erase v
  | .mk c ul ur ll lr d => by
    rw [Node.remove]
    by_cases h : (Node.mk c ul ur ll lr d).hasChildren = true
    · rw [if_pos h, Node.getAll_mk, Node.getAll_mk,
        Node.getAllOpt_remOpt v ul, Node.getAllOpt_remOpt v ur,
        Node.getAllOpt_remOpt v ll, Node.getAllOpt_remOpt v lr]
      simp only [Finset.erase_union_distrib]
    · obtain ⟨h1, h2, h3, h4⟩ :=
        Node.hasChildren_eq_false (Bool.not_eq_true _ ▸ h :
          (Node.mk c ul ur ll lr d).hasChildren = false)
      subst h1; subst h2; subst h3; subst h4
      rw [if_neg h, Node.getAll_mk, Node.getAll_mk, Node.getAllOpt_none]
      simp only [Finset.erase_union_distrib, Finset.erase_empty]

/-- Effect of one slot of the `remove` loop on that slot's membership. -/
theorem Node.getAllOpt_remOpt (v : V) :
    (o : Option (Node V C)) → Node.getAllOpt (Node.remOpt v o) = (Node.getAllOpt o).erase v
  | none => by
    rw [Node.remOpt, Node.getAllOpt_none, Finset.erase_empty]
  | some m => by
    rw [Node.remOpt, Node.getAllOpt_some, Node.getAllOpt_some, Node.getAll_remove v m]

end

mutual

/-- Removing an absent value leaves the node unchanged. -/
theorem Node.remove_of_notMem (v : V) :
    (n : Node V C) → v ∉ n.getAllChildValues → n.remove v = n
  | .mk c ul ur ll lr d => by
    intro hv
    rw [Node.getAll_mk] at hv
    simp only [Finset.mem_union, not_or] at hv
    obtain ⟨⟨⟨⟨hul, hur⟩, hll⟩, hlr⟩, hd⟩ := hv
    rw [Node.remove]
    by_cases h : (Node.mk c ul ur ll lr d).hasChildren = true
    · rw [if_pos h, Node.remOpt_of_notMem v ul hul, Node.remOpt_of_notMem v ur hur,
        Node.remOpt_of_notMem v ll hll, Node.remOpt_of_notMem v lr hlr,
        Finset.erase_eq_of_not_mem hd]
    · rw [if_neg h, Finset.erase_eq_of_not_mem hd]

/-- One slot of the `remove` loop is the identity when the value is absent
from that slot. -/
theorem Node.remOpt_of_notMem (v : V) :
    (o : Option (Node V C)) → v ∉ Node.getAllOpt o → Node.remOpt v o = o
  | none, _ => by rw [Node.remOpt]
  | some m, hv => by
    rw [Node.getAllOpt_some] at hv
    rw [Node.remOpt, Node.remove_of_notMem v m hv]

end

mutual

/-- `add` then `remove` of a value not previously stored restores the node
exactly. -/
theorem Node.add_remove_cancel (P : SearchPredicate V C) (v : V) :
    (n : Node V C) → v ∉ n.getAllChildValues → (n.add P v).remove v = n
  | .mk c ul ur ll lr d => by
    intro hv
    rw [Node.getAll_mk] at hv
    simp only [Finset.mem_union, not_or] at hv
    obtain ⟨⟨⟨⟨hul, hur⟩, hll⟩, hlr⟩, hd⟩ := hv
    rw [Node.add]
    by_cases h : (Node.mk c ul ur ll lr d).hasChildren = true
    · rw [if_pos h, Node.remove]
      rw [if_pos (by
        rw [Node.hasChildren] at h ⊢
        simpa only [Node.addOpt_isSome] using h)]
      rw [Node.addOpt_remOpt_cancel P v ul hul, Node.addOpt_remOpt_cancel P v ur hur,
        Node.addOpt_remOpt_cancel P v ll hll, Node.addOpt_remOpt_cancel P v lr hlr]
      by_cases hw : (Node.satOpt P v ul || Node.satOpt P v ur || Node.satOpt P v ll
          || Node.satOpt P v lr) = true
      · rw [if_pos hw, Finset.erase_eq_of_not_mem hd]
      · rw [if_neg hw, Finset.erase_insert hd]
    · rw [if_neg h, Node.remove,
        if_neg (by rw [Node.hasChildren]; rw [Node.hasChildren] at h; exact h),
        Finset.erase_insert hd]

/-- One slot of the `add` loop followed by one slot of the `remove` loop is
the identity when the value is absent from that slot. -/
theorem Node.addOpt_remOpt_cancel (P : SearchPredicate V C) (v : V) :
    (o : Option (Node V C)) → v ∉ Node.getAllOpt o → Node.remOpt v (Node.addOpt P v o) = o
  | none, _ => by rw [Node.addOpt, Node.remOpt]
  | some m, hv => by
    rw [Node.getAllOpt_some] at hv
    rw [Node.addOpt]
    by_cases hs : P.satisfies m.m_compare v = true
    · rw [if_pos hs, Node.remOpt, Node.add_remove_cancel P v m hv]
    · rw [if_neg hs, Node.remOpt, Node.remove_of_notMem v m hv]

end

theorem Node.locOpt_none : Node.locOpt (V := V) (C := C) none = [] := by rw [Node.locOpt]

theorem Node.locOpt_some (m : Node V C) : Node.locOpt (some m) = m.locations := by
  rw [Node.locOpt]

theorem mem_ite_empty_right {w : V} (p : Prop) [Decidable p] (d : Finset V) :
    (w ∈ (if p then d else ∅)) ↔ (p ∧ w ∈ d) := by
  split_ifs with hp <;> simp [hp]

mutual

/-- Transitive membership, described through the node locations: a value is
stored somewhere in the subtree iff some node of the subtree holds it in
its local set. -/
theorem Node.mem_getAll_iff (w : V) :
    (n : Node V C) → (w ∈ n.getAllChildValues ↔ ∃ p ∈ n.locations, w ∈ p.2)
  | .mk c ul ur ll lr d => by
    rw [Node.getAll_mk, Node.locations]
    simp only [Finset.mem_union, List.mem_cons, List.mem_append,
      Node.mem_getAllOpt_iff w ul, Node.mem_getAllOpt_iff w ur,
      Node.mem_getAllOpt_iff w ll, Node.mem_getAllOpt_iff w lr,
      or_and_right, exists_or, exists_eq_left]
    aesop

/-- `mem_getAll_iff` for one child slot. -/
theorem Node.mem_getAllOpt_iff (w : V) :
    (o : Option (Node V C)) → (w ∈ Node.getAllOpt o ↔ ∃ p ∈ Node.locOpt o, w ∈ p.2)
  | none => by
    rw [Node.getAllOpt_none, Node.locOpt_none]
    simp
  | some m => by
    rw [Node.getAllOpt_some, Node.locOpt_some]
    exact Node.mem_getAll_iff w m

end

mutual

/-- Query membership, described through the node locations: a query returns
exactly the values held at some node whose region overlaps the query
region. -/
theorem Node.mem_getNearby_iff (P : SearchPredicate V C) (q : C) (w : V) :
    (n : Node V C) → (w ∈ n.getNearbyValues P q ↔
      ∃ p ∈ n.locations, w ∈ p.2 ∧ P.overlaps p.1 q = true)
  | .mk c ul ur ll lr d => by
    rw [Node.getNearby_mk, Node.locations]
    simp only [Finset.mem_union, List.mem_cons, List.mem_append,
      Node.mem_nearOpt_iff P q w ul, Node.mem_nearOpt_iff P q w ur,
      Node.mem_nearOpt_iff P q w ll, Node.mem_nearOpt_iff P q w lr,
      mem_ite_empty_right, or_and_right, exists_or, exists_eq_left]
    aesop

/-- `mem_getNearby_iff` for one child slot. -/
theorem Node.mem_nearOpt_iff (P : SearchPredicate V C) (q : C) (w : V) :
    (o : Option (Node V C)) → (w ∈ Node.nearOpt P q o ↔
      ∃ p ∈ Node.locOpt o, w ∈ p.2 ∧ P.overlaps p.1 q = true)
  | none => by
    rw [Node.nearOpt_none, Node.locOpt_none]
    simp
  | some m => by
    rw [Node.nearOpt_some, Node.locOpt_some]
    exact Node.mem_getNearby_iff P q w m

end

theorem Node.m_compare_mk (c : C) (ul ur ll lr : Option (Node V C)) (d : Finset V) :
    (Node.mk c ul ur ll lr d).m_compare = c := by rw [Node.m_compare]

theorem Node.m_data_mk (c : C) (ul ur ll lr : Option (Node V C)) (d : Finset V) :
    (Node.mk c ul ur ll lr d).m_data = d := by rw [Node.m_data]

theorem Node.getAll_leaf (c : C) (d : Finset V) :
    (Node.mk c none none none none d).getAllChildValues = d := by
  rw [Node.getAll_mk, Node.getAllOpt_none]
  simp

theorem Node.hasChildren_leaf (c : C) (d : Finset V) :
    (Node.mk c none none none none d).hasChildren = false := by
  rw [Node.hasChildren]
  rfl

theorem Node.getAll_setCompare (cc : C) (n : Node V C) :
    (n.setCompare cc).getAllChildValues = n.getAllChildValues := by
  cases n with
  | mk c ul ur ll lr d => rw [Node.setCompare, Node.getAll_mk, Node.getAll_mk]

theorem Node.m_compare_setCompare (cc : C) (n : Node V C) :
    (n.setCompare cc).m_compare = cc := by
  cases n with
  | mk c ul ur ll lr d => rw [Node.setCompare, Node.m_compare_mk]

theorem Node.getAllOpt_setCompOpt (cc : C) (o : Option (Node V C)) :
    Node.getAllOpt (Node.setCompOpt cc o) = Node.getAllOpt o := by
  cases o with
  | none => rw [Node.setCompOpt]
  | some m => rw [Node.setCompOpt, Node.getAllOpt_some, Node.getAllOpt_some,
      Node.getAll_setCompare]

theorem Node.setCompOpt_isSome (cc : C) (o : Option (Node V C)) :
    (Node.setCompOpt cc o).isSome = o.isSome := by
  cases o with
  | none => rw [Node.setCompOpt]
  | some m => rw [Node.setCompOpt]; rfl

/-- `add` only grows the local data set. -/
theorem Node.m_data_sub_add (P : SearchPredicate V C) (v : V) (n : Node V C) :
    n.m_data ⊆ (n.add P v).m_data := by
  cases n with
  | mk c ul ur ll lr d =>
    rw [Node.add]
    split
    · rw [Node.m_data_mk, Node.m_data_mk]
      split
      · exact Finset.Subset.refl d
      · exact Finset.subset_insert v d
    · rw [Node.m_data_mk, Node.m_data_mk]
      exact Finset.subset_insert v d

/-- `add` only grows the transitive membership. -/
theorem Node.getAll_sub_add (P : SearchPredicate V C) (v : V) (n : Node V C) :
    n.getAllChildValues ⊆ (n.add P v).getAllChildValues := by
  rw [Node.getAll_add]
  exact Finset.subset_insert v n.getAllChildValues

theorem Node.addList_m_compare (P : SearchPredicate V C) :
    (l : List V) → (n : Node V C) → (Node.addList P n l).m_compare = n.m_compare
  | [], n => by rw [Node.addList]
  | v :: vs, n => by
    rw [Node.addList, Node.addList_m_compare P vs, Node.add_m_compare]

theorem Node.addList_hasChildren (P : SearchPredicate V C) :
    (l : List V) → (n : Node V C) → (Node.addList P n l).hasChildren = n.hasChildren
  | [], n => by rw [Node.addList]
  | v :: vs, n => by
    rw [Node.addList, Node.addList_hasChildren P vs, Node.add_hasChildren]

theorem Node.getAll_addList (P : SearchPredicate V C) :
    (l : List V) → (n : Node V C) →
      (Node.addList P n l).getAllChildValues = n.getAllChildValues ∪ l.toFinset
  | [], n => by
    rw [Node.addList]
    simp
  | v :: vs, n => by
    rw [Node.addList, Node.getAll_addList P vs, Node.getAll_add]
    ext w
    simp only [Finset.mem_union, Finset.mem_insert, List.toFinset_cons]
    tauto

/-- `Node.rebOpt` inverted. -/
theorem Node.rebOpt_eq_some {P : SearchPredicate V C} {fuel : Nat}
    {o o' : Option (Node V C)} (h : Node.rebOpt P fuel o = some o') :
    (o = none ∧ o' = none) ∨
      (∃ m m', o = some m ∧ o' = some m' ∧ Node.rebalance P fuel m = some m') := by
  cases o with
  | none =>
    rw [Node.rebOpt] at h
    exact Or.inl ⟨rfl, (Option.some_inj.mp h).symm⟩
  | some m =>
    rw [Node.rebOpt] at h
    cases hr : Node.rebalance P fuel m with
    | none => rw [hr] at h; exact absurd h (by simp)
    | some m' =>
      rw [hr] at h
      simp only [Option.map_some'] at h
      exact Or.inr ⟨m, m', rfl, (Option.some_inj.mp h).symm, hr⟩

/-- `Node.rebalanceKids` inverted: the node's compare and data survive and
every slot is rebalanced by `rebOpt`. -/
theorem Node.rebalanceKids_eq_some {P : SearchPredicate V C} {fuel : Nat}
    {c : C} {ul ur ll lr : Option (Node V C)} {d : Finset V} {n' : Node V C}
    (h : Node.rebalanceKids P fuel (Node.mk c ul ur ll lr d) = some n') :
    ∃ ul' ur' ll' lr', n' = Node.mk c ul' ur' ll' lr' d ∧
      Node.rebOpt P fuel ul = some ul' ∧ Node.rebOpt P fuel ur = some ur' ∧
      Node.rebOpt P fuel ll = some ll' ∧ Node.rebOpt P fuel lr = some lr' := by
  rw [Node.rebalanceKids] at h
  cases hul : Node.rebOpt P fuel ul with
  | none => rw [hul] at h; exact absurd h (by simp)
  | some ul' =>
    rw [hul] at h
    cases hur : Node.rebOpt P fuel ur with
    | none => rw [hur] at h; exact absurd h (by simp)
    | some ur' =>
      rw [hur] at h
      cases hll : Node.rebOpt P fuel ll with
      | none => rw [hll] at h; exact absurd h (by simp)
      | some ll' =>
        rw [hll] at h
        cases hlr : Node.rebOpt P fuel lr with
        | none => rw [hlr] at h; exact absurd h (by simp)
        | some lr' =>
          rw [hlr] at h
          simp only [Option.bind_eq_bind, Option.some_bind, Option.some_inj] at h
          exact ⟨ul', ur', ll', lr', h.symm, rfl, rfl, rfl, rfl⟩

theorem Node.child_mk_ul (c : C) (ul ur ll lr : Option (Node V C)) (d : Finset V) :
    (Node.mk c ul ur ll lr d).child .UPPER_LEFT = ul := by rw [Node.child]

theorem Node.child_mk_ur (c : C) (ul ur ll lr : Option (Node V C)) (d : Finset V) :
    (Node.mk c ul ur ll lr d).child .UPPER_RIGHT = ur := by rw [Node.child]

theorem Node.child_mk_ll (c : C) (ul ur ll lr : Option (Node V C)) (d : Finset V) :
    (Node.mk c ul ur ll lr d).child .LOWER_LEFT = ll := by rw [Node.child]

theorem Node.child_mk_lr (c : C) (ul ur ll lr : Option (Node V C)) (d : Finset V) :
    (Node.mk c ul ur ll lr d).child .LOWER_RIGHT = lr := by rw [Node.child]

theorem Node.hasChildren_of_child_some {n : Node V C} {r : RegionCode} {m : Node V C}
    (h : n.child r = some m) : n.hasChildren = true := by
  cases n with
  | mk c ul ur ll lr d =>
    rw [Node.hasChildren]
    cases r <;> rw [Node.child] at h <;> simp [h]

theorem Node.mem_getAll_of_mem_data {v : V} {n : Node V C}
    (h : v ∈ n.m_data) : v ∈ n.getAllChildValues := by
  cases n with
  | mk c ul ur ll lr d =>
    rw [Node.m_data] at h
    rw [Node.getAll_mk]
    simp only [Finset.mem_union]
    exact Or.inr h

theorem Node.mem_getAll_of_slot {v : V} {c : C} {ul ur ll lr : Option (Node V C)}
    {d : Finset V} {r : RegionCode} {m : Node V C}
    (hr : (Node.mk c ul ur ll lr d).child r = some m) (hv : v ∈ m.getAllChildValues) :
    v ∈ (Node.mk c ul ur ll lr d).getAllChildValues := by
  rw [Node.getAll_mk]
  simp only [Finset.mem_union]
  cases r <;> rw [Node.child] at hr <;> rw [hr] at * <;>
    simp only [Node.getAllOpt_some] <;> tauto

/-- Where `Node::add` left the value: either it is an orphan in this node's
own `m_data`, or some non-null child whose region satisfies it holds it. -/
def Node.routedAt (P : SearchPredicate V C) (v : V) (n : Node V C) : Prop :=
  v ∈ n.m_data ∨ ∃ r m, n.child r = some m ∧ P.satisfies m.m_compare v = true ∧
    v ∈ m.getAllChildValues

theorem Node.satOpt_eq_true_iff {P : SearchPredicate V C} {v : V} {o : Option (Node V C)} :
    Node.satOpt P v o = true ↔ ∃ m, o = some m ∧ P.satisfies m.m_compare v = true := by
  cases o with
  | none => rw [Node.satOpt]; simp
  | some m => rw [Node.satOpt]; simp

/-- A satisfied slot still holds the value (satisfied) after its `add`
iteration. -/
theorem Node.addOpt_route {P : SearchPredicate V C} {v : V} {o : Option (Node V C)}
    (h : Node.satOpt P v o = true) :
    ∃ m', Node.addOpt P v o = some m' ∧ P.satisfies m'.m_compare v = true ∧
      v ∈ m'.getAllChildValues := by
  obtain ⟨m, rfl, hs⟩ := Node.satOpt_eq_true_iff.mp h
  refine ⟨m.add P v, ?_, ?_, ?_⟩
  · rw [Node.addOpt, if_pos hs]
  · rw [Node.add_m_compare]; exact hs
  · rw [Node.getAll_add]; exact Finset.mem_insert_self v _

theorem Node.child_add {P : SearchPredicate V C} {w : V} {n : Node V C} (r : RegionCode)
    (h : n.hasChildren = true) : (n.add P w).child r = Node.addOpt P w (n.child r) := by
  cases n with
  | mk c ul ur ll lr d =>
    rw [Node.add, if_pos h]
    cases r <;> rw [Node.child, Node.child]

/-- `Node::add` routes the added value somewhere: into a satisfying child,
or into this node's own data as an orphan. -/
theorem Node.routedAt_add (P : SearchPredicate V C) (v : V) (n : Node V C)
    (h : n.hasChildren = true) : Node.routedAt P v (n.add P v) := by
  cases n with
  | mk c ul ur ll lr d =>
    by_cases hw : (Node.satOpt P v ul || Node.satOpt P v ur || Node.satOpt P v ll
        || Node.satOpt P v lr) = true
    · simp only [Bool.or_eq_true] at hw
      rcases hw with ((h1 | h2) | h3) | h4
      · obtain ⟨m', hm', hs', hv'⟩ := Node.addOpt_route h1
        exact Or.inr ⟨.UPPER_LEFT, m', by rw [Node.child_add _ h, Node.child_mk_ul, hm'],
          hs', hv'⟩
      · obtain ⟨m', hm', hs', hv'⟩ := Node.addOpt_route h2
        exact Or.inr ⟨.UPPER_RIGHT, m', by rw [Node.child_add _ h, Node.child_mk_ur, hm'],
          hs', hv'⟩
      · obtain ⟨m', hm', hs', hv'⟩ := Node.addOpt_route h3
        exact Or.inr ⟨.LOWER_LEFT, m', by rw [Node.child_add _ h, Node.child_mk_ll, hm'],
          hs', hv'⟩
      · obtain ⟨m', hm', hs', hv'⟩ := Node.addOpt_route h4
        exact Or.inr ⟨.LOWER_RIGHT, m', by rw [Node.child_add _ h, Node.child_mk_lr, hm'],
          hs', hv'⟩
    · left
      rw [Node.add, if_pos h, Node.m_data_mk, if_neg hw]
      exact Finset.mem_insert_self v d

/-- Later `add`s do not disturb where a value was routed. -/
theorem Node.routedAt_add_preserved {P : SearchPredicate V C} {v : V} {n : Node V C}
    (w : V) (h : Node.routedAt P v n) : Node.routedAt P v (n.add P w) := by
  rcases h with hd | ⟨r, m, hr, hs, hm⟩
  · exact Or.inl (Node.m_data_sub_add P w n hd)
  · have hc : n.hasChildren = true := Node.hasChildren_of_child_some hr
    have hchild : (n.add P w).child r = Node.addOpt P w (n.child r) := Node.child_add r hc
    rw [hr, Node.addOpt] at hchild
    by_cases hsw : P.satisfies m.m_compare w = true
    · rw [if_pos hsw] at hchild
      exact Or.inr ⟨r, m.add P w, hchild,
        by rw [Node.add_m_compare]; exact hs, Node.getAll_sub_add P w m hm⟩
    · rw [if_neg hsw] at hchild
      exact Or.inr ⟨r, m, hchild, hs, hm⟩

theorem Node.routedAt_addList_preserved {P : SearchPredicate V C} {v : V} :
    (l : List V) → (n : Node V C) → Node.routedAt P v n →
      Node.routedAt P v (Node.addList P n l)
  | [], n, h => by rw [Node.addList]; exact h
  | w :: ws, n, h => by
    rw [Node.addList]
    exact Node.routedAt_addList_preserved ws (n.add P w) (Node.routedAt_add_preserved w h)

/-- After the re-add loop of `Node::rebalance`, every re-added value is
routed somewhere in the node. -/
theorem Node.routedAt_addList (P : SearchPredicate V C) (v : V) :
    (l : List V) → (n : Node V C) → n.hasChildren = true → v ∈ l →
      Node.routedAt P v (Node.addList P n l)
  | [], _, _, hv => absurd hv (List.not_mem_nil v)
  | w :: ws, n, hc, hv => by
    rw [Node.addList]
    rcases List.mem_cons.mp hv with rfl | hv'
    · exact Node.routedAt_addList_preserved ws (n.add P v) (Node.routedAt_add P v n hc)
    · exact Node.routedAt_addList P v ws (n.add P w)
        (by rw [Node.add_hasChildren]; exact hc) hv'

/-- One slot of the child-rebalance loop shrinks (or keeps) membership,
given the inductive hypothesis at the lower fuel. -/
theorem Node.rebOpt_getAll_sub {P : SearchPredicate V C} {fuel : Nat}
    (IH : ∀ m m', Node.rebalance P fuel m = some m' →
      m'.getAllChildValues ⊆ m.getAllChildValues)
    {o o' : Option (Node V C)} (h : Node.rebOpt P fuel o = some o') :
    Node.getAllOpt o' ⊆ Node.getAllOpt o := by
  rcases Node.rebOpt_eq_some h with ⟨rfl, rfl⟩ | ⟨m, m', rfl, rfl, hm⟩
  · exact Finset.Subset.refl _
  · rw [Node.getAllOpt_some, Node.getAllOpt_some]
    exact IH m m' hm

/-- The child-rebalance loop never invents values. -/
theorem Node.rebalanceKids_getAll_sub {P : SearchPredicate V C} {fuel : Nat}
    (IH : ∀ m m', Node.rebalance P fuel m = some m' →
      m'.getAllChildValues ⊆ m.getAllChildValues)
    {n2 n' : Node V C} (h : Node.rebalanceKids P fuel n2 = some n') :
    n'.getAllChildValues ⊆ n2.getAllChildValues := by
  cases n2 with
  | mk c ul ur ll lr d =>
    obtain ⟨ul', ur', ll', lr', rfl, hul, hur, hll, hlr⟩ := Node.rebalanceKids_eq_some h
    rw [Node.getAll_mk, Node.getAll_mk]
    exact Finset.union_subset_union
      (Finset.union_subset_union
        (Finset.union_subset_union
          (Finset.union_subset_union (Node.rebOpt_getAll_sub IH hul)
            (Node.rebOpt_getAll_sub IH hur))
          (Node.rebOpt_getAll_sub IH hll))
        (Node.rebOpt_getAll_sub IH hlr))
      (Finset.Subset.refl d)

/-- `Node::rebalance` never invents values: any terminating run's
membership is contained in the original membership. -/
theorem Node.rebalance_getAll_sub (P : SearchPredicate V C) (fuel : Nat) :
    ∀ n n' : Node V C, Node.rebalance P fuel n = some n' →
      n'.getAllChildValues ⊆ n.getAllChildValues := by
  induction fuel with
  | zero =>
    intro n n' h
    rw [Node.rebalance] at h
    exact absurd h (by simp)
  | succ fuel IH =>
    intro n n' h
    cases n with
    | mk c ul ur ll lr d =>
      rw [Node.rebalance] at h
      split at h
      · split at h
        · -- small data: collapse to a leaf of the pruned set
          injection h with h
          subst h
          rw [Node.getAll_leaf]
          exact Finset.filter_subset _ _
        · split at h
          · -- subdivide with existing children
            refine (Node.rebalanceKids_getAll_sub IH h).trans ?_
            rw [Node.reAddExisting, Node.getAll_addList, Node.getAll_mk,
              Node.getAllOpt_setCompOpt, Node.getAllOpt_setCompOpt,
              Node.getAllOpt_setCompOpt, Node.getAllOpt_setCompOpt,
              Finset.sort_toFinset]
            intro w hw
            simp only [Finset.mem_union, Finset.not_mem_empty, or_false] at hw
            rcases hw with hw | hw
            · rw [Node.getAll_mk]
              simp only [Finset.mem_union]
              tauto
            · exact Finset.filter_subset _ _ hw
          · injection h with h
            subst h
            rw [Node.getAll_leaf]
            exact Finset.filter_subset _ _
      · split at h
        · injection h with h
          subst h
          rw [Node.getAll_leaf]
          exact Finset.filter_subset _ _
        · split at h
          · -- subdivide with four fresh children
            refine (Node.rebalanceKids_getAll_sub IH h).trans ?_
            rw [Node.reAddFresh, Node.getAll_addList, Node.getAll_mk, Finset.sort_toFinset]
            intro w hw
            simp only [Node.getAllOpt_some, Node.getAll_leaf, Finset.mem_union,
              Finset.not_mem_empty, or_false, false_or] at hw
            exact Finset.filter_subset _ _ hw
          · injection h with h
            subst h
            rw [Node.getAll_leaf]
            exact Finset.filter_subset _ _

/-- One slot of the child-rebalance loop keeps a value that satisfies the
child's region, given the inductive hypothesis at the lower fuel. -/
theorem Node.rebOpt_retention {P : SearchPredicate V C} {fuel : Nat} {v : V}
    (IH : ∀ m m', Node.rebalance P fuel m = some m' →
      ∀ w ∈ m.getAllChildValues, P.satisfies m.m_compare w = true →
        w ∈ m'.getAllChildValues)
    {m : Node V C} {o' : Option (Node V C)}
    (h : Node.rebOpt P fuel (some m) = some o')
    (hs : P.satisfies m.m_compare v = true) (hm : v ∈ m.getAllChildValues) :
    v ∈ Node.getAllOpt o' := by
  rcases Node.rebOpt_eq_some h with ⟨h1, _⟩ | ⟨m0, m', hm0, rfl, hreb⟩
  · exact absurd h1 (by simp)
  · rw [Node.getAllOpt_some]
    injection hm0 with hm0
    subst hm0
    exact IH m m' hreb v hm hs

/-- The child-rebalance loop keeps every routed value. -/
theorem Node.rebalanceKids_retention {P : SearchPredicate V C} {fuel : Nat} {v : V}
    (IH : ∀ m m', Node.rebalance P fuel m = some m' →
      ∀ w ∈ m.getAllChildValues, P.satisfies m.m_compare w = true →
        w ∈ m'.getAllChildValues)
    {n2 n' : Node V C} (h : Node.rebalanceKids P fuel n2 = some n')
    (hroute : Node.routedAt P v n2) : v ∈ n'.getAllChildValues := by
  cases n2 with
  | mk c ul ur ll lr d =>
    obtain ⟨ul', ur', ll', lr', rfl, hul, hur, hll, hlr⟩ := Node.rebalanceKids_eq_some h
    rcases hroute with hd | ⟨r, m, hr, hs, hm⟩
    · rw [Node.m_data_mk] at hd
      exact Node.mem_getAll_of_mem_data (by rw [Node.m_data_mk]; exact hd)
    · rw [Node.getAll_mk]
      simp only [Finset.mem_union]
      cases r
      · rw [Node.child_mk_ul] at hr
        subst hr
        exact Or.inl (Or.inl (Or.inl (Or.inl (Node.rebOpt_retention IH hul hs hm))))
      · rw [Node.child_mk_ur] at hr
        subst hr
        exact Or.inl (Or.inl (Or.inl (Or.inr (Node.rebOpt_retention IH hur hs hm))))
      · rw [Node.child_mk_ll] at hr
        subst hr
        exact Or.inl (Or.inl (Or.inr (Node.rebOpt_retention IH hll hs hm)))
      · rw [Node.child_mk_lr] at hr
        subst hr
        exact Or.inl (Or.inr (Node.rebOpt_retention IH hlr hs hm))

/-- `Node::rebalance` keeps every value that survives the prune against
this node's own region: nothing that satisfies `m_compare` is lost. -/
theorem Node.rebalance_retention (P : SearchPredicate V C) (fuel : Nat) :
    ∀ n n' : Node V C, Node.rebalance P fuel n = some n' →
      ∀ v ∈ n.getAllChildValues, P.satisfies n.m_compare v = true →
        v ∈ n'.getAllChildValues := by
  induction fuel with
  | zero =>
    intro n n' h
    rw [Node.rebalance] at h
    exact absurd h (by simp)
  | succ fuel IH =>
    intro n n' h v hv hsat
    cases n with
    | mk c ul ur ll lr d =>
      rw [Node.m_compare_mk] at hsat
      have hvS : v ∈ (Node.mk c ul ur ll lr d).getAllChildValues.filter
          (fun w => P.satisfies c w = true) := Finset.mem_filter.mpr ⟨hv, hsat⟩
      rw [Node.rebalance] at h
      split at h
      · split at h
        · injection h with h
          subst h
          rw [Node.getAll_leaf]
          exact hvS
        · split at h
          · -- subdivide with existing children
            rename_i hHas _ _
            refine Node.rebalanceKids_retention IH h ?_
            rw [Node.reAddExisting]
            refine Node.routedAt_addList P v _ _ ?_ ((Finset.mem_sort _).mpr hvS)
            rw [Node.hasChildren]
            simp only [Node.setCompOpt_isSome]
            rw [Node.hasChildren] at hHas
            exact hHas
          · injection h with h
            subst h
            rw [Node.getAll_leaf]
            exact hvS
      · split at h
        · injection h with h
          subst h
          rw [Node.getAll_leaf]
          exact hvS
        · split at h
          · -- subdivide with four fresh children
            refine Node.rebalanceKids_retention IH h ?_
            rw [Node.reAddFresh]
            refine Node.routedAt_addList P v _ _ ?_ ((Finset.mem_sort _).mpr hvS)
            rw [Node.hasChildren]
            rfl
          · injection h with h
            subst h
            rw [Node.getAll_leaf]
            exact hvS

/-- Small data always collapses: if the (pre-prune) membership has at most
`g_minDataSize` values, one step of `Node::rebalance` returns a leaf
holding exactly the pruned set, regardless of existing children. -/
theorem Node.rebalance_small (P : SearchPredicate V C) (fuel : Nat) (n : Node V C)
    (h : n.getAllChildValues.card ≤ g_minDataSize) :
    Node.rebalance P (fuel + 1) n = some (Node.mk n.m_compare none none none none
      (n.getAllChildValues.filter (fun v => P.satisfies n.m_compare v = true))) := by
  cases n with
  | mk c ul ur ll lr d =>
    rw [Node.rebalance, Node.m_compare_mk]
    have hcard : ((Node.mk c ul ur ll lr d).getAllChildValues.filter
        (fun v => P.satisfies c v = true)).card ≤ g_minDataSize :=
      le_trans (Finset.card_filter_le _ _) h
    by_cases hc : (Node.mk c ul ur ll lr d).hasChildren = true
    · rw [if_pos hc, if_pos hcard]
    · rw [if_neg hc, if_pos hcard]

/-- The candidate quadrant regions computed by `Node::rebalance` before the
subdivision decision: from the children's current regions when children
exist, from four `nilCompare` placeholders otherwise. -/
def Node.candidateQuads (P : SearchPredicate V C) (n : Node V C) (vals : Finset V) :
    RegionCode → C :=
  if n.hasChildren then
    P.buildQuadrantsFromData n.m_compare vals (fun r => Node.compOpt P (n.child r))
  else
    P.buildQuadrantsFromData n.m_compare vals (fun _ => P.nilCompare)

theorem Node.shouldSubdivide_eq_false_iff {P : SearchPredicate V C} {vals : Finset V}
    {quads : RegionCode → C} :
    Node.shouldSubdivide P vals quads = false ↔
      ∀ v ∈ vals, ∀ r : RegionCode, P.satisfies (quads r) v = true := by
  rw [Node.shouldSubdivide]
  simp

theorem Node.shouldSubdivide_eq_true_iff {P : SearchPredicate V C} {vals : Finset V}
    {quads : RegionCode → C} :
    Node.shouldSubdivide P vals quads = true ↔
      ∃ v ∈ vals, ∃ r : RegionCode, P.satisfies (quads r) v = false := by
  rw [Node.shouldSubdivide]
  simp

/-- If every pruned value satisfies all four candidate quadrants, one step
of `Node::rebalance` collapses the node to a leaf holding the pruned set
(deleting any children), no matter how large the set is. -/
theorem Node.rebalance_no_discrimination (P : SearchPredicate V C) (fuel : Nat)
    (n : Node V C)
    (h : ∀ v ∈ n.getAllChildValues.filter (fun w => P.satisfies n.m_compare w = true),
      ∀ r : RegionCode,
        P.satisfies (Node.candidateQuads P n
          (n.getAllChildValues.filter (fun w => P.satisfies n.m_compare w = true)) r)
          v = true) :
    Node.rebalance P (fuel + 1) n = some (Node.mk n.m_compare none none none none
      (n.getAllChildValues.filter (fun v => P.satisfies n.m_compare v = true))) := by
  cases n with
  | mk c ul ur ll lr d =>
    rw [Node.m_compare_mk] at h ⊢
    rw [Node.rebalance]
    by_cases hc : (Node.mk c ul ur ll lr d).hasChildren = true
    · rw [Node.candidateQuads, Node.m_compare_mk, if_pos hc] at h
      rw [if_pos hc]
      by_cases hcard : ((Node.mk c ul ur ll lr d).getAllChildValues.filter
          (fun v => P.satisfies c v = true)).card ≤ g_minDataSize
      · rw [if_pos hcard]
      · rw [if_neg hcard, if_neg (by
          rw [Node.shouldSubdivide_eq_false_iff.mpr h]
          simp)]
    · rw [Node.candidateQuads, Node.m_compare_mk, if_neg hc] at h
      rw [if_neg hc]
      by_cases hcard : ((Node.mk c ul ur ll lr d).getAllChildValues.filter
          (fun v => P.satisfies c v = true)).card ≤ g_minDataSize
      · rw [if_pos hcard]
      · rw [if_neg hcard, if_neg (by
          rw [Node.shouldSubdivide_eq_false_iff.mpr h]
          simp)]

/-! ## Tree-level lemmas -/

theorem SearchTree2D.mem_unionNearby {t : SearchTree2D V C} {w : V} :
    (F : List C) → (w ∈ t.unionNearby F ↔ ∃ R ∈ F, w ∈ t.getNearbyValues R)
  | [] => by rw [SearchTree2D.unionNearby]; simp
  | R :: Rs => by
    rw [SearchTree2D.unionNearby]
    simp only [List.foldr_cons, Finset.mem_union, List.mem_cons]
    rw [show (List.foldr (fun R s => t.getNearbyValues R ∪ s) ∅ Rs) = t.unionNearby Rs
      from rfl, SearchTree2D.mem_unionNearby Rs]
    constructor
    · rintro (h | ⟨R', hR', hw⟩)
      · exact ⟨R, Or.inl rfl, h⟩
      · exact ⟨R', Or.inr hR', hw⟩
    · rintro ⟨R', hR' | hR', hw⟩
      · subst hR'; exact Or.inl hw
      · exact Or.inr ⟨R', hR', hw⟩

/-! ## The all-or-nothing child invariant -/

theorem Node.balOpt_none : Node.balOpt (V := V) (C := C) none = true := by rw [Node.balOpt]

theorem Node.balOpt_some (m : Node V C) : Node.balOpt (some m) = m.balanced4 := by
  rw [Node.balOpt]

theorem Node.balanced4_mk (c : C) (ul ur ll lr : Option (Node V C)) (d : Finset V) :
    (Node.mk c ul ur ll lr d).balanced4 =
      (((ul.isNone && ur.isNone && ll.isNone && lr.isNone)
        || (ul.isSome && ur.isSome && ll.isSome && lr.isSome))
      && Node.balOpt ul && Node.balOpt ur && Node.balOpt ll && Node.balOpt lr) := by
  rw [Node.balanced4]

theorem Node.balanced4_leaf (c : C) (d : Finset V) :
    (Node.mk c none none none none d).balanced4 = true := by
  rw [Node.balanced4_mk, Node.balOpt_none]
  rfl

mutual

/-- `Node::add` preserves the all-or-nothing child invariant. -/
theorem Node.balanced4_add (P : SearchPredicate V C) (v : V) :
    (n : Node V C) → n.balanced4 = true → (n.add P v).balanced4 = true
  | .mk c ul ur ll lr d, hb => by
    rw [Node.add]
    split
    · rw [Node.balanced4_mk] at hb ⊢
      simp only [Bool.and_eq_true, Bool.or_eq_true] at hb ⊢
      obtain ⟨⟨⟨⟨hshape, b1⟩, b2⟩, b3⟩, b4⟩ := hb
      refine ⟨⟨⟨⟨?_, Node.balOpt_addOpt P v ul b1⟩, Node.balOpt_addOpt P v ur b2⟩,
        Node.balOpt_addOpt P v ll b3⟩, Node.balOpt_addOpt P v lr b4⟩
      simp only [Node.addOpt_isSome, Node.addOpt_isNone]
      exact hshape
    · rw [Node.balanced4_mk] at hb ⊢
      exact hb

/-- One slot of the `add` loop preserves `balOpt`. -/
theorem Node.balOpt_addOpt (P : SearchPredicate V C) (v : V) :
    (o : Option (Node V C)) → Node.balOpt o = true → Node.balOpt (Node.addOpt P v o) = true
  | none, _ => by rw [Node.addOpt, Node.balOpt_none]
  | some m, hb => by
    rw [Node.balOpt_some] at hb
    rw [Node.addOpt]
    split
    · rw [Node.balOpt_some]
      exact Node.balanced4_add P v m hb
    · rw [Node.balOpt_some]
      exact hb

end

theorem Node.balanced4_addList (P : SearchPredicate V C) :
    (l : List V) → (n : Node V C) → n.balanced4 = true →
      (Node.addList P n l).balanced4 = true
  | [], _, hb => by rw [Node.addList]; exact hb
  | v :: vs, n, hb => by
    rw [Node.addList]
    exact Node.balanced4_addList P vs (n.add P v) (Node.balanced4_add P v n hb)

theorem Node.balanced4_setCompare (cc : C) (n : Node V C) (hb : n.balanced4 = true) :
    (n.setCompare cc).balanced4 = true := by
  cases n with
  | mk c ul ur ll lr d => rw [Node.setCompare]; rw [Node.balanced4_mk] at hb ⊢; exact hb

theorem Node.balOpt_setCompOpt (cc : C) (o : Option (Node V C))
    (hb : Node.balOpt o = true) : Node.balOpt (Node.setCompOpt cc o) = true := by
  cases o with
  | none => rw [Node.setCompOpt]; exact hb
  | some m =>
    rw [Node.setCompOpt, Node.balOpt_some]
    rw [Node.balOpt_some] at hb
    exact Node.balanced4_setCompare cc m hb

theorem Node.setCompOpt_isNone (cc : C) (o : Option (Node V C)) :
    (Node.setCompOpt cc o).isNone = o.isNone := by
  cases o with
  | none => rw [Node.setCompOpt]
  | some m => rw [Node.setCompOpt]; rfl

/-- One slot of the child-rebalance loop preserves `balOpt` and the slot's
occupancy, given the inductive hypothesis at the lower fuel. -/
theorem Node.rebOpt_balanced {P : SearchPredicate V C} {fuel : Nat}
    (IH : ∀ m m', Node.rebalance P fuel m = some m' →
      m.balanced4 = true → m'.balanced4 = true)
    {o o' : Option (Node V C)} (h : Node.rebOpt P fuel o = some o')
    (hb : Node.balOpt o = true) :
    Node.balOpt o' = true ∧ o'.isSome = o.isSome ∧ o'.isNone = o.isNone := by
  rcases Node.rebOpt_eq_some h with ⟨rfl, rfl⟩ | ⟨m, m', rfl, rfl, hm⟩
  · exact ⟨Node.balOpt_none, rfl, rfl⟩
  · rw [Node.balOpt_some] at hb ⊢
    exact ⟨IH m m' hm hb, rfl, rfl⟩

/-- The child-rebalance loop preserves the all-or-nothing invariant. -/
theorem Node.rebalanceKids_balanced {P : SearchPredicate V C} {fuel : Nat}
    (IH : ∀ m m', Node.rebalance P fuel m = some m' →
      m.balanced4 = true → m'.balanced4 = true)
    {n2 n' : Node V C} (h : Node.rebalanceKids P fuel n2 = some n')
    (hb : n2.balanced4 = true) : n'.balanced4 = true := by
  cases n2 with
  | mk c ul ur ll lr d =>
    obtain ⟨ul', ur', ll', lr', rfl, hul, hur, hll, hlr⟩ := Node.rebalanceKids_eq_some h
    rw [Node.balanced4_mk] at hb ⊢
    simp only [Bool.and_eq_true, Bool.or_eq_true] at hb ⊢
    obtain ⟨⟨⟨⟨hshape, b1⟩, b2⟩, b3⟩, b4⟩ := hb
    obtain ⟨c1, s1, n1⟩ := Node.rebOpt_balanced IH hul b1
    obtain ⟨c2, s2, n2⟩ := Node.rebOpt_balanced IH hur b2
    obtain ⟨c3, s3, n3⟩ := Node.rebOpt_balanced IH hll b3
    obtain ⟨c4, s4, n4⟩ := Node.rebOpt_balanced IH hlr b4
    refine ⟨⟨⟨⟨?_, c1⟩, c2⟩, c3⟩, c4⟩
    rw [s1, s2, s3, s4, n1, n2, n3, n4]
    exact hshape

/-- `Node::rebalance` preserves the all-or-nothing child invariant: child
creation materializes all four slots together and `deleteChildren` clears
all four together. -/
theorem Node.rebalance_balanced (P : SearchPredicate V C) (fuel : Nat) :
    ∀ n n' : Node V C, Node.rebalance P fuel n = some n' →
      n.balanced4 = true → n'.balanced4 = true := by
  induction fuel with
  | zero =>
    intro n n' h
    rw [Node.rebalance] at h
    exact absurd h (by simp)
  | succ fuel IH =>
    intro n n' h hb
    cases n with
    | mk c ul ur ll lr d =>
      rw [Node.rebalance] at h
      split at h
      · split at h
        · injection h with h; subst h; exact Node.balanced4_leaf _ _
        · split at h
          · -- subdivide with existing children: all four slots were occupied
            rename_i hHas _ _
            refine Node.rebalanceKids_balanced IH h ?_
            rw [Node.reAddExisting]
            refine Node.balanced4_addList P _ _ ?_
            rw [Node.balanced4_mk] at hb ⊢
            simp only [Bool.and_eq_true, Bool.or_eq_true] at hb ⊢
            obtain ⟨⟨⟨⟨hshape, b1⟩, b2⟩, b3⟩, b4⟩ := hb
            refine ⟨⟨⟨⟨?_, Node.balOpt_setCompOpt _ ul b1⟩, Node.balOpt_setCompOpt _ ur b2⟩,
              Node.balOpt_setCompOpt _ ll b3⟩, Node.balOpt_setCompOpt _ lr b4⟩
            simp only [Node.setCompOpt_isSome, Node.setCompOpt_isNone]
            exact hshape
          · injection h with h; subst h; exact Node.balanced4_leaf _ _
      · split at h
        · injection h with h; subst h; exact Node.balanced4_leaf _ _
        · split at h
          · -- subdivide with four fresh children: all four slots created
            refine Node.rebalanceKids_balanced IH h ?_
            rw [Node.reAddFresh]
            refine Node.balanced4_addList P _ _ ?_
            rw [Node.balanced4_mk]
            simp only [Node.balOpt_some, Node.balanced4_leaf, Node.balOpt_none]
            rfl
          · injection h with h; subst h; exact Node.balanced4_leaf _ _

theorem Node.balanced4_newNode (P : SearchPredicate V C) :
    (Node.newNode P).balanced4 = true := by
  rw [Node.newNode]
  exact Node.balanced4_leaf _ _

theorem Node.balanced4_deleteChildren (n : Node V C) :
    n.deleteChildren.balanced4 = true := by
  cases n with
  | mk c ul ur ll lr d =>
    rw [Node.deleteChildren]
    exact Node.balanced4_leaf _ _

theorem Node.remOpt_isSome (v : V) (o : Option (Node V C)) :
    (Node.remOpt v o).isSome = o.isSome := by
  cases o with
  | none => rw [Node.remOpt]
  | some m => rw [Node.remOpt]; rfl

theorem Node.remOpt_isNone (v : V) (o : Option (Node V C)) :
    (Node.remOpt v o).isNone = o.isNone := by
  cases o with
  | none => rw [Node.remOpt]
  | some m => rw [Node.remOpt]; rfl

mutual

/-- `Node::remove` preserves the all-or-nothing child invariant. -/
theorem Node.balanced4_remove (v : V) :
    (n : Node V C) → n.balanced4 = true → (n.remove v).balanced4 = true
  | .mk c ul ur ll lr d, hb => by
    rw [Node.remove]
    split
    · rw [Node.balanced4_mk] at hb ⊢
      simp only [Bool.and_eq_true, Bool.or_eq_true] at hb ⊢
      obtain ⟨⟨⟨⟨hshape, b1⟩, b2⟩, b3⟩, b4⟩ := hb
      refine ⟨⟨⟨⟨?_, Node.balOpt_remOpt v ul b1⟩, Node.balOpt_remOpt v ur b2⟩,
        Node.balOpt_remOpt v ll b3⟩, Node.balOpt_remOpt v lr b4⟩
      simp only [Node.remOpt_isSome, Node.remOpt_isNone]
      exact hshape
    · rw [Node.balanced4_mk] at hb ⊢
      exact hb

/-- One slot of the `remove` loop preserves `balOpt`. -/
theorem Node.balOpt_remOpt (v : V) :
    (o : Option (Node V C)) → Node.balOpt o = true → Node.balOpt (Node.remOpt v o) = true
  | none, _ => by rw [Node.remOpt, Node.balOpt_none]
  | some m, hb => by
    rw [Node.balOpt_some] at hb
    rw [Node.remOpt, Node.balOpt_some]
    exact Node.balanced4_remove v m hb

end

/-- The `(m_compare, m_data)` pairs of every node of the tree. -/
def SearchTree2D.locations (t : SearchTree2D V C) : List (C × Finset V) :=
  match t.m_tree with
  | some n => n.locations
  | none => []

theorem Node.getNearby_leaf_empty (P : SearchPredicate V C) (q : C) (c : C) :
    (Node.mk (V := V) c none none none none ∅).getNearbyValues P q = ∅ := by
  rw [Node.getNearby_mk, Node.nearOpt_none]
  split <;> simp

/-- The data set of `Node::rebalance` after the pruning loop: the transitive
membership restricted to the values satisfying this node's own region. -/
def Node.prunedData (P : SearchPredicate V C) (n : Node V C) : Finset V :=
  n.getAllChildValues.filter (fun v => P.satisfies n.m_compare v = true)

/-! ## The claims -/

/-- C1: on a node with children, a value that satisfies none of the
non-empty children's regions is retained in the node's own local set as an
orphan rather than dropped, and any later `getNearbyValues` whose query
region overlaps this node's own region returns it. -/
theorem claim_C1_orphan_retention (P : SearchPredicate V C) (n : Node V C) (v : V)
    (hc : n.hasChildren = true)
    (hnone : ∀ r : RegionCode, Node.satOpt P v (n.child r) = false) :
    v ∈ (n.add P v).m_data ∧
      ∀ q : C, P.overlaps n.m_compare q = true → v ∈ (n.add P v).getNearbyValues P q := by
  cases n with
  | mk c ul ur ll lr d =>
    have h1 : Node.satOpt P v ul = false := by
      have := hnone .UPPER_LEFT; rwa [Node.child_mk_ul] at this
    have h2 : Node.satOpt P v ur = false := by
      have := hnone .UPPER_RIGHT; rwa [Node.child_mk_ur] at this
    have h3 : Node.satOpt P v ll = false := by
      have := hnone .LOWER_LEFT; rwa [Node.child_mk_ll] at this
    have h4 : Node.satOpt P v lr = false := by
      have := hnone .LOWER_RIGHT; rwa [Node.child_mk_lr] at this
    rw [Node.add, if_pos hc, Node.m_compare_mk]
    rw [h1, h2, h3, h4]
    simp only [Bool.or_self, Bool.false_or, Bool.false_eq_true, if_false]
    constructor
    · rw [Node.m_data_mk]
      exact Finset.mem_insert_self v d
    · intro q hq
      rw [Node.getNearby_mk, if_pos hq]
      simp only [Finset.mem_union, Finset.mem_insert]
      tauto

/-- C1 witness: a node whose four children exist but never satisfy. -/
theorem claim_C1_witness :
    (5 ∈ ((Node.mk () (some (Node.mk () none none none none ∅))
        (some (Node.mk () none none none none ∅))
        (some (Node.mk () none none none none ∅))
        (some (Node.mk () none none none none ∅)) ∅).add noSatPred 5).m_data)
    ∧ ∀ q : Unit, noSatPred.overlaps
        (Node.mk () (some (Node.mk () none none none none ∅))
          (some (Node.mk () none none none none ∅))
          (some (Node.mk () none none none none ∅))
          (some (Node.mk () none none none none ∅)) (∅ : Finset ℕ)).m_compare q = true →
        5 ∈ ((Node.mk () (some (Node.mk () none none none none ∅))
          (some (Node.mk () none none none none ∅))
          (some (Node.mk () none none none none ∅))
          (some (Node.mk () none none none none ∅)) ∅).add noSatPred 5).getNearbyValues noSatPred q :=
  claim_C1_orphan_retention noSatPred _ 5 (by decide) (by decide)

/-- C9: `remove` eliminates every stored copy of the value — it is absent
from the whole transitive membership and from every query result. -/
theorem claim_C9_remove_eliminates (t : SearchTree2D V C) (v : V) :
    v ∉ (t.remove v).allValues ∧ ∀ q : C, v ∉ (t.remove v).getNearbyValues q := by
  obtain ⟨pred, root⟩ := t
  cases root with
  | none =>
    constructor
    · rw [SearchTree2D.remove, SearchTree2D.allValues]
      simp
    · intro q
      rw [SearchTree2D.remove, SearchTree2D.getNearbyValues]
      cases pred <;> simp
  | some n =>
    have hall : v ∉ (n.remove v).getAllChildValues := by
      rw [Node.getAll_remove]
      exact Finset.not_mem_erase v _
    constructor
    · rw [SearchTree2D.remove, SearchTree2D.allValues]
      exact hall
    · intro q
      rw [SearchTree2D.remove, SearchTree2D.getNearbyValues]
      cases pred with
      | none => simp
      | some P =>
        simp only [Option.map_some']
        intro hmem
        exact hall (Node.getNearby_sub_getAll P q _ hmem)

/-- C10: with a predicate set, `add` never loses the value — it lands in
the root's transitive membership even if it satisfies no child region. -/
theorem claim_C10_add_never_loses (P : SearchPredicate V C) (t : SearchTree2D V C)
    (v : V) (hp : t.m_predicate = some P) : v ∈ (t.add v).allValues := by
  obtain ⟨pred, root⟩ := t
  simp only at hp
  subst hp
  rw [SearchTree2D.add]
  simp only
  rw [SearchTree2D.allValues]
  simp only
  rw [Node.getAll_add]
  exact Finset.mem_insert_self v _

/-- C10 witness. -/
theorem claim_C10_witness :
    7 ∈ ((SearchTree2D.mk (some truePred) (some (Node.mk () none none none none {1}))).add
      7).allValues :=
  claim_C10_add_never_loses truePred _ 7 rfl

/-- C7: removing an absent value leaves the tree unchanged; querying and
rebalancing a tree without a root node are no-ops returning the empty set
resp. the unchanged tree. -/
theorem claim_C7_noop_edge_cases (t : SearchTree2D V C) (v : V) (q : C) (fuel : Nat) :
    (v ∉ t.allValues → t.remove v = t)
    ∧ (t.m_tree = none → t.getNearbyValues q = ∅ ∧ t.rebalance fuel = some t) := by
  obtain ⟨pred, root⟩ := t
  constructor
  · intro hv
    cases root with
    | none => rfl
    | some n =>
      rw [SearchTree2D.allValues] at hv
      rw [SearchTree2D.remove]
      simp only [Option.map_some', Node.remove_of_notMem v n hv]
  · intro hroot
    simp only at hroot
    subst hroot
    constructor
    · rw [SearchTree2D.getNearbyValues]
    · rw [SearchTree2D.rebalance]

/-- C7 witness. -/
theorem claim_C7_witness :
    ((3 : ℕ) ∉ (SearchTree2D.mk (some truePred) (some (Node.mk () none none none none {1}))).allValues
      ∧ (SearchTree2D.mk (some truePred) (some (Node.mk () none none none none {1}))).remove 3
        = SearchTree2D.mk (some truePred) (some (Node.mk () none none none none {1})))
    ∧ ((SearchTree2D.mk (V := ℕ) (C := Unit) (some truePred) none).getNearbyValues () = ∅
      ∧ (SearchTree2D.mk (V := ℕ) (C := Unit) (some truePred) none).rebalance 2
        = some (SearchTree2D.mk (some truePred) none)) :=
  ⟨⟨by decide,
    (claim_C7_noop_edge_cases _ 3 () 2).1 (by decide)⟩,
    (claim_C7_noop_edge_cases (SearchTree2D.mk (some truePred) none) 3 () 2).2 rfl⟩

/-- C5 counterexample: when the value is already stored, `add` then
`remove` erases the pre-existing copy, so queries differ from the state
before the `add`. -/
theorem claim_C5_counterexample :
    SearchTree2D.getNearbyValues
      (((SearchTree2D.mk (some truePred)
        (some (Node.mk () none none none none {0}))).add 0).remove 0) ()
    ≠ (SearchTree2D.mk (some truePred)
        (some (Node.mk () none none none none {0}))).getNearbyValues () := by
  decide

/-- C5 (amended): for a value not currently stored, `add v` then `remove v`
yields the same query results as before the `add` for every query region. -/
theorem claim_C5_add_remove_id (t : SearchTree2D V C) (v : V)
    (hv : v ∉ t.allValues) :
    ∀ q : C, ((t.add v).remove v).getNearbyValues q = t.getNearbyValues q := by
  intro q
  obtain ⟨pred, root⟩ := t
  cases pred with
  | none =>
    rw [SearchTree2D.add]
    simp only
    cases root with
    | none => rfl
    | some n =>
      rw [SearchTree2D.allValues] at hv
      rw [SearchTree2D.remove]
      simp only [Option.map_some', Node.remove_of_notMem v n hv]
  | some P =>
    cases root with
    | none =>
      rw [SearchTree2D.add]
      simp only [Option.getD_none]
      rw [SearchTree2D.remove]
      simp only [Option.map_some']
      rw [Node.add_remove_cancel P v (Node.newNode P)
        (by rw [Node.newNode, Node.getAll_leaf]; exact Finset.not_mem_empty v)]
      simp only [SearchTree2D.getNearbyValues]
      rw [Node.newNode, Node.getNearby_leaf_empty]
    | some n =>
      rw [SearchTree2D.allValues] at hv
      rw [SearchTree2D.add]
      simp only [Option.getD_some]
      rw [SearchTree2D.remove]
      simp only [Option.map_some', Node.add_remove_cancel P v n hv]

/-- C5 witness for the amended statement. -/
theorem claim_C5_witness :
    SearchTree2D.getNearbyValues
      (((SearchTree2D.mk (some truePred)
        (some (Node.mk () none none none none {1}))).add 0).remove 0) ()
    = (SearchTree2D.mk (some truePred)
        (some (Node.mk () none none none none {1}))).getNearbyValues () :=
  claim_C5_add_remove_id _ 0 (by decide) ()

/-- C3: a tree (with a predicate) holding at most `g_minDataSize` distinct
values has no child nodes after any completed `rebalance`, with all
surviving values in the root's local set. -/
theorem claim_C3_collapse (P : SearchPredicate V C) (t : SearchTree2D V C) (fuel : Nat)
    (hp : t.m_predicate = some P) (hcard : t.allValues.card ≤ g_minDataSize) :
    ∃ t', t.rebalance (fuel + 1) = some t' ∧
      ∀ n', t'.m_tree = some n' → n'.hasChildren = false ∧
        n'.m_data = t.allValues.filter (fun v => P.satisfies n'.m_compare v = true) := by
  obtain ⟨pred, root⟩ := t
  simp only at hp
  subst hp
  cases root with
  | none =>
    refine ⟨_, by rw [SearchTree2D.rebalance], ?_⟩
    intro n' hn'
    simp only at hn'
    exact absurd hn' (by simp)
  | some n =>
    rw [SearchTree2D.allValues] at hcard ⊢
    have hsmall : (n.buildRootRegion P).getAllChildValues.card ≤ g_minDataSize := by
      rw [Node.buildRootRegion, Node.getAll_setCompare]
      exact hcard
    refine ⟨_, by
      rw [SearchTree2D.rebalance]
      simp only
      rw [Node.rebalance_small P fuel _ hsmall]
      rfl, ?_⟩
    intro n' hn'
    simp only [Option.some_inj] at hn'
    subst hn'
    refine ⟨Node.hasChildren_leaf _ _, ?_⟩
    rw [Node.m_data_mk, Node.m_compare_mk, Node.buildRootRegion, Node.getAll_setCompare,
      Node.m_compare_setCompare]

/-- C3 witness: two values collapse to a childless root. -/
theorem claim_C3_witness :
    ∃ t', (SearchTree2D.mk (some truePred)
        (some (Node.mk () none none none none {1, 2}))).rebalance (0 + 1) = some t' ∧
      ∀ n', t'.m_tree = some n' → n'.hasChildren = false ∧
        n'.m_data = (SearchTree2D.mk (some truePred)
          (some (Node.mk () none none none none {1, 2}))).allValues.filter
            (fun v => truePred.satisfies n'.m_compare v = true) :=
  claim_C3_collapse truePred _ 0 rfl (by decide)

/-- C4: if every surviving value satisfies all four candidate quadrant
regions, `shouldSubdivide` answers `false` and a completed `rebalance`
leaves the node childless (a leaf holding the whole pruned set) no matter
how large the set is; and whenever at least one value fails at least one
quadrant, `shouldSubdivide` answers `true`. -/
theorem claim_C4_no_discrimination :
    (∀ (P : SearchPredicate V C) (fuel : Nat) (n : Node V C),
      (∀ v ∈ Node.prunedData P n, ∀ r : RegionCode,
        P.satisfies (Node.candidateQuads P n (Node.prunedData P n) r) v = true) →
      Node.shouldSubdivide P (Node.prunedData P n)
          (Node.candidateQuads P n (Node.prunedData P n)) = false ∧
        Node.rebalance P (fuel + 1) n =
          some (Node.mk n.m_compare none none none none (Node.prunedData P n)))
    ∧ (∀ (P : SearchPredicate V C) (vals : Finset V) (quads : RegionCode → C),
        (∃ v ∈ vals, ∃ r : RegionCode, P.satisfies (quads r) v = false) →
          Node.shouldSubdivide P vals quads = true) := by
  constructor
  · intro P fuel n h
    rw [Node.prunedData] at h ⊢
    exact ⟨Node.shouldSubdivide_eq_false_iff.mpr h,
      Node.rebalance_no_discrimination P fuel n h⟩
  · intro P vals quads h
    exact Node.shouldSubdivide_eq_true_iff.mpr h

/-- C4 witness: six values that satisfy every quadrant stay on a childless
node; a failing value flips `shouldSubdivide` to `true`. -/
theorem claim_C4_witness :
    (Node.shouldSubdivide truePred
        (Node.prunedData truePred (Node.mk () none none none none {0, 1, 2, 3, 4, 5}))
        (Node.candidateQuads truePred (Node.mk () none none none none {0, 1, 2, 3, 4, 5})
          (Node.prunedData truePred (Node.mk () none none none none {0, 1, 2, 3, 4, 5}))) = false
      ∧ Node.rebalance truePred (0 + 1) (Node.mk () none none none none {0, 1, 2, 3, 4, 5}) =
        some (Node.mk (Node.mk () none none none none
            ({0, 1, 2, 3, 4, 5} : Finset ℕ)).m_compare none none none none
          (Node.prunedData truePred (Node.mk () none none none none {0, 1, 2, 3, 4, 5}))))
    ∧ Node.shouldSubdivide noSatPred ({7} : Finset ℕ) (fun _ => ()) = true :=
  ⟨claim_C4_no_discrimination.1 truePred 0 _ (by decide),
    claim_C4_no_discrimination.2 noSatPred {7} (fun _ => ()) (by decide)⟩

/-- C6: the all-or-nothing child invariant — all four slots empty or all
four occupied, recursively — holds for a freshly constructed node and
after `deleteChildren`, and is preserved by `add`, `remove` and any
completed `rebalance` (whose child creation materializes all four
quadrant children together). -/
theorem claim_C6_all_or_nothing :
    (∀ P : SearchPredicate V C, (Node.newNode P).balanced4 = true)
    ∧ (∀ n : Node V C, n.deleteChildren.balanced4 = true)
    ∧ (∀ (P : SearchPredicate V C) (v : V) (n : Node V C),
        n.balanced4 = true → (n.add P v).balanced4 = true)
    ∧ (∀ (v : V) (n : Node V C), n.balanced4 = true → (n.remove v).balanced4 = true)
    ∧ (∀ (P : SearchPredicate V C) (fuel : Nat) (n n' : Node V C),
        Node.rebalance P fuel n = some n' → n.balanced4 = true → n'.balanced4 = true) :=
  ⟨Node.balanced4_newNode, Node.balanced4_deleteChildren,
    fun P v n => Node.balanced4_add P v n,
    fun v n => Node.balanced4_remove v n,
    fun P fuel n n' h hb => Node.rebalance_balanced P fuel n n' h hb⟩

/-- C6 witness: the invariant computations at concrete nodes, including a
rebalance run that materializes all four children. -/
theorem claim_C6_witness :
    ((Node.newNode (V := ℕ) noSatPred).balanced4 = true)
    ∧ ((Node.mk () (some (Node.mk () none none none none {1})) none none none
        ({2} : Finset ℕ)).deleteChildren.balanced4 = true)
    ∧ ((Node.mk () none none none none ({3} : Finset ℕ)).balanced4 = true →
        ((Node.mk () none none none none ({3} : Finset ℕ)).add truePred 4).balanced4 = true)
    ∧ ((Node.mk () none none none none ({3} : Finset ℕ)).balanced4 = true →
        ((Node.mk () none none none none ({3} : Finset ℕ)).remove 3).balanced4 = true)
    ∧ (Node.rebalance truePred 1 (Node.mk () none none none none ({5} : Finset ℕ)) =
          some (Node.mk () none none none none ({5} : Finset ℕ)) →
        (Node.mk () none none none none ({5} : Finset ℕ)).balanced4 = true →
        (Node.mk () none none none none ({5} : Finset ℕ)).balanced4 = true) :=
  ⟨claim_C6_all_or_nothing.1 noSatPred,
    claim_C6_all_or_nothing.2.1 _,
    claim_C6_all_or_nothing.2.2.1 truePred 4 _,
    claim_C6_all_or_nothing.2.2.2.1 3 _,
    claim_C6_all_or_nothing.2.2.2.2 truePred 1 _ _⟩

/-- C2 counterexample: for a predicate whose recomputed root region is
satisfied by nothing (legal under the interface), `rebalance` prunes the
stored value away, so the union of `getNearbyValues` over a family that
overlaps every region (the only available notion of covering the root's
region here) misses an inserted, never removed value. -/
theorem claim_C2_counterexample :
    (SearchTree2D.mk (some noSatPred)
        (some (Node.mk () none none none none ({0} : Finset ℕ)))).allValues = {0}
    ∧ (((SearchTree2D.mk (some noSatPred)
        (some (Node.mk () none none none none ({0} : Finset ℕ)))).rebalance 1).map
          (fun t' => t'.unionNearby [()])) = some ∅
    ∧ (∀ a b : Unit, noSatPred.overlaps a b = true) := by
  refine ⟨by decide, ?_, by decide⟩
  rw [SearchTree2D.rebalance]
  simp only
  rw [Node.rebalance_small noSatPred 0
    ((Node.mk () none none none none ({0} : Finset ℕ)).buildRootRegion noSatPred)
    (by decide)]
  simp only [Option.map_some']
  decide

/-- C2 (amended): provided every stored value satisfies the recomputed root
region (the predicate contract the tree assumes), a completed `rebalance`
preserves the stored set exactly, and the union of `getNearbyValues (Ri)`
over any family of regions in which every value-holding node's region
overlaps some `Ri` (the abstract form of a family exactly covering the
root's region) equals the full stored set — no value, orphans included, is
lost. -/
theorem claim_C2_completeness (P : SearchPredicate V C) (t t' : SearchTree2D V C)
    (fuel : Nat) (hp : t.m_predicate = some P)
    (hreb : t.rebalance fuel = some t')
    (hroot : ∀ v ∈ t.allValues, P.satisfies (P.buildRegionFromData t.allValues) v = true)
    (F : List C)
    (hcov : ∀ p ∈ t'.locations, ∀ w ∈ p.2, ∃ R ∈ F, P.overlaps p.1 R = true) :
    t'.allValues = t.allValues ∧ t'.unionNearby F = t.allValues := by
  obtain ⟨pred, root⟩ := t
  simp only at hp
  subst hp
  cases root with
  | none =>
    rw [SearchTree2D.rebalance] at hreb
    simp only [Option.some_inj] at hreb
    subst hreb
    constructor
    · rfl
    · ext w
      simp only [SearchTree2D.mem_unionNearby, SearchTree2D.getNearbyValues,
        SearchTree2D.allValues]
      simp
  | some n =>
    rw [SearchTree2D.rebalance] at hreb
    simp only at hreb
    cases hr : Node.rebalance P fuel (n.buildRootRegion P) with
    | none => rw [hr] at hreb; exact absurd hreb (by simp)
    | some n' =>
      rw [hr] at hreb
      simp only [Option.map_some', Option.some_inj] at hreb
      subst hreb
      simp only [SearchTree2D.allValues] at hroot ⊢
      have hget : n'.getAllChildValues = n.getAllChildValues := by
        refine Finset.Subset.antisymm ?_ ?_
        · refine (Node.rebalance_getAll_sub P fuel _ n' hr).trans ?_
          rw [Node.buildRootRegion, Node.getAll_setCompare]
        · intro v hv
          refine Node.rebalance_retention P fuel _ n' hr v ?_ ?_
          · rw [Node.buildRootRegion, Node.getAll_setCompare]
            exact hv
          · rw [Node.buildRootRegion, Node.m_compare_setCompare]
            exact hroot v hv
      refine ⟨hget, ?_⟩
      ext w
      rw [SearchTree2D.mem_unionNearby]
      constructor
      · rintro ⟨R, _, hw⟩
        simp only [SearchTree2D.getNearbyValues] at hw
        rw [← hget]
        exact Node.getNearby_sub_getAll P R n' hw
      · intro hw
        rw [← hget] at hw
        obtain ⟨p, hploc, hwp⟩ := (Node.mem_getAll_iff w n').mp hw
        obtain ⟨R, hRF, hov⟩ := hcov p (by
          rw [SearchTree2D.locations]
          exact hploc) w hwp
        refine ⟨R, hRF, ?_⟩
        simp only [SearchTree2D.getNearbyValues]
        exact (Node.mem_getNearby_iff P R w n').mpr ⟨p, hploc, hwp, hov⟩

/-- C2 witness for the amended statement. -/
theorem claim_C2_witness :
    (SearchTree2D.mk (some truePred)
        (some (Node.mk () none none none none ({0, 1} : Finset ℕ)))).allValues
      = (SearchTree2D.mk (some truePred)
        (some (Node.mk () none none none none ({0, 1} : Finset ℕ)))).allValues
    ∧ (SearchTree2D.mk (some truePred)
        (some (Node.mk () none none none none ({0, 1} : Finset ℕ)))).unionNearby [()]
      = (SearchTree2D.mk (some truePred)
        (some (Node.mk () none none none none ({0, 1} : Finset ℕ)))).allValues :=
  claim_C2_completeness truePred
    (SearchTree2D.mk (some truePred) (some (Node.mk () none none none none {0, 1})))
    (SearchTree2D.mk (some truePred) (some (Node.mk () none none none none {0, 1})))
    1 rfl
    (by
      rw [SearchTree2D.rebalance]
      simp only
      rw [Node.rebalance_small truePred 0
        ((Node.mk () none none none none ({0, 1} : Finset ℕ)).buildRootRegion truePred)
        (by decide)]
      rfl)
    (by decide) [()] (by decide)
